import Mathlib

/-!
Verification of the word-collection reporting API
(`src/app/services/backend/src/routers/word_collection.py`).

The file embeds the two request handlers `get_rank` and `get_word_tags`
shallowly: records are structures, Python dicts (which preserve insertion
order) are association lists, Python's stable `sorted` is `List.mergeSort`,
and the fallible mention aggregation (which can raise `KeyError`/`TypeError`
on an unknown channel key) returns `Option`.  Timestamps enter the
aggregators only through the formatted string `"YYYY-MM-DD HH:MM:SS"`;
records here carry that string directly.  Python compares strings
lexicographically by code point, which `strLE` below implements.
-/

/-- Code-point lexicographic comparison of character lists, the order Python
uses when comparing strings (and hence when sorting the bucket keys). -/
def charsLE : List Char → List Char → Bool
  | [], _ => true
  | _ :: _, [] => false
  | a :: as, b :: bs =>
    if a.toNat < b.toNat then true
    else if b.toNat < a.toNat then false
    else charsLE as bs

/-- Python's `<=` on strings: code-point lexicographic order. -/
def strLE (a b : String) : Bool := charsLE a.data b.data

/-- One raw correction record as unpacked by
`timestamp, incorrect_word, correct_word, content_tag, occurrence_count, rank = record`.
The `timestamp` field is the already-formatted `"YYYY-MM-DD HH:MM:SS"` string
(`timestamp.strftime(...)` is the only use the handlers make of the raw value). -/
structure Record where
  timestamp : String
  incorrect_word : String
  correct_word : String
  tag : String
  occurrence_count : Nat
  rank : Nat
deriving DecidableEq, Repr

/-- The per-word dict appended to `processed_data[timestamp_str][content_tag]`. -/
structure WordEntry where
  incorrect_word : String
  correct_word : String
  occurrence_count : Nat
  rank : Nat
deriving DecidableEq, Repr

/-- The `WordEntry` built from a record at line 160-165 of the source. -/
def entryOf (r : Record) : WordEntry :=
  ⟨r.incorrect_word, r.correct_word, r.occurrence_count, r.rank⟩

/-- The inner dict of `processed_data`: tag ↦ list of word entries,
as an insertion-ordered association list. -/
abbrev TagMap := List (String × List WordEntry)

/-- The `processed_data` dict: formatted timestamp ↦ tag map,
as an insertion-ordered association list. -/
abbrev ProcData := List (String × TagMap)

/-- Append one entry under `tag`, creating the key at the end on first sight
(`if content_tag not in ...: ... = []` followed by `append`). -/
def appendWord (tm : TagMap) (tag : String) (e : WordEntry) : TagMap :=
  match tm with
  | [] => [(tag, [e])]
  | (t, ws) :: rest =>
    if t = tag then (t, ws ++ [e]) :: rest else (t, ws) :: appendWord rest tag e

/-- Process one record into `processed_data` (lines 150-165). -/
def insertRecord (pd : ProcData) (r : Record) : ProcData :=
  match pd with
  | [] => [(r.timestamp, [(r.tag, [entryOf r])])]
  | (ts, tm) :: rest =>
    if ts = r.timestamp then (ts, appendWord tm r.tag (entryOf r)) :: rest
    else (ts, tm) :: insertRecord rest r

/-- The `for record in raw_data` grouping loop, with explicit accumulator. -/
def buildProcessed (pd : ProcData) : List Record → ProcData
  | [] => pd
  | r :: rs => buildProcessed (insertRecord pd r) rs

/-- The fully built `processed_data` dict. -/
def processed_data (records : List Record) : ProcData := buildProcessed [] records

/-- Key order used by `sorted(processed_data.items())`: Python compares the
`(key, value)` tuples, and since dict keys are distinct only the string keys
are ever compared. -/
def bucketLE (a b : String × TagMap) : Bool := strLE a.1 b.1

/-- The buckets in ascending key order, `sorted(processed_data.items())`. -/
def sortedBuckets (records : List Record) : ProcData :=
  (processed_data records).mergeSort bucketLE

/-- Python dict lookup `content_data[tag]`, guarded by `tag in content_data`. -/
def lookupTag (tm : TagMap) (tag : String) : Option (List WordEntry) :=
  match tm with
  | [] => none
  | (t, ws) :: rest => if t = tag then some ws else lookupTag rest tag

/-- The flattening loop `for words in content_data.values(): all_words.extend(words)`. -/
def all_words (tm : TagMap) : List WordEntry :=
  tm.foldl (fun acc p => acc ++ p.2) []

/-- Sort key of `sorted(..., key=lambda x: x["occurrence_count"], reverse=True)`:
Python's sort is stable, and with `reverse=True` equal-count entries keep their
original relative order, which is exactly `mergeSort` with this comparator. -/
def countLE (a b : WordEntry) : Bool := decide (b.occurrence_count ≤ a.occurrence_count)

/-- The rank-dedup/truncate loop (lines 178-183 and 197-202): walk the sorted
list, keep a word only when its rank is unseen, and stop as soon as ten words
are kept. -/
def rankLoop : List WordEntry → List Nat → List WordEntry → List WordEntry
  | [], _, acc => acc
  | w :: ws, seen, acc =>
    if seen.contains w.rank then
      if acc.length ≥ 10 then acc else rankLoop ws seen acc
    else
      if (acc ++ [w]).length ≥ 10 then acc ++ [w]
      else rankLoop ws (w.rank :: seen) (acc ++ [w])

/-- The `result_words` computed for one bucket from its selected word list. -/
def topWords (ws : List WordEntry) : List WordEntry :=
  rankLoop (ws.mergeSort countLE) [] []

/-- The word list a bucket contributes, before sorting: with a truthy tag
(`if tag:` — `None` and `""` are both falsy) the bucket's list for that tag,
or `none` when the tag is absent (the `continue` branch); otherwise the
flattened `all_words`. -/
def scanWords (tag : Option String) (tm : TagMap) : Option (List WordEntry) :=
  match tag with
  | some t => if t = "" then some (all_words tm) else lookupTag tm t
  | none => some (all_words tm)

/-- The key under which a bucket's words are emitted:
`timestamp_data[tag]` for a truthy tag, else `timestamp_data["total"]`. -/
def outKey (tag : Option String) : String :=
  match tag with
  | some t => if t = "" then "total" else t
  | none => "total"

/-- One element of the returned list: `{"timestamp": ..., <key>: [...]}`. -/
structure RankBucket where
  timestamp : String
  key : String
  words : List WordEntry
deriving DecidableEq, Repr

/-- What one bucket of `sorted(processed_data.items())` contributes to
`result`: `none` models the `continue` branch. -/
def bucketOut (tag : Option String) (p : String × TagMap) : Option RankBucket :=
  (scanWords tag p.2).map (fun ws => ⟨p.1, outKey tag, topWords ws⟩)

/-- The full aggregation of the `/rank` endpoint: the `result` list built by
lines 149-208 from the fetched records and the optional `tag` parameter. -/
def rankResult (records : List Record) (tag : Option String) : List RankBucket :=
  (sortedBuckets records).filterMap (bucketOut tag)

/-- One value of the `mention_counts` dict in `get_word_tags`, together with
its key (the formatted timestamp). -/
structure MentionEntry where
  timestamp : String
  total : Nat
  news : Nat
  webtoon : Nat
  youtube : Nat
  search_word : String
  incorrect_word : List String
  correct_word : List String
deriving DecidableEq, Repr

/-- The fresh per-bucket dict of lines 326-334. -/
def initMention (ts sw : String) : MentionEntry :=
  ⟨ts, 0, 0, 0, 0, sw, [], []⟩

/-- The statement `mention_counts[timestamp_str][content_tag] += occurrence_count`.
The per-bucket dict holds integer counters under `"news"`, `"webtoon"`,
`"youtube"` and `"total"`, so those four keys succeed (an unexpected
`"total"` tag would silently inflate the total); any other tag faults —
`KeyError` for an absent key, `TypeError` for the non-integer values under
`"search_word"`/`"incorrect_word"`/`"correct_word"` — modeled as `none`. -/
def channelAdd (e : MentionEntry) (tag : String) (occ : Nat) : Option MentionEntry :=
  if tag = "news" then some { e with news := e.news + occ }
  else if tag = "webtoon" then some { e with webtoon := e.webtoon + occ }
  else if tag = "youtube" then some { e with youtube := e.youtube + occ }
  else if tag = "total" then some { e with total := e.total + occ }
  else none

/-- Lines 339-343: when the searched word matches either form, record both
forms, each only if not already present. -/
def searchUpdate (sw : String) (r : Record) (e : MentionEntry) : MentionEntry :=
  if sw = r.incorrect_word ∨ sw = r.correct_word then
    { e with
      incorrect_word :=
        if r.incorrect_word ∈ e.incorrect_word then e.incorrect_word
        else e.incorrect_word ++ [r.incorrect_word],
      correct_word :=
        if r.correct_word ∈ e.correct_word then e.correct_word
        else e.correct_word ++ [r.correct_word] }
  else e

/-- Apply `f` to the entry stored under key `ts` (in our uses the key is
always present, so the `[]` base case is never reached). -/
def updateFirst : List MentionEntry → String → (MentionEntry → Option MentionEntry) →
    Option (List MentionEntry)
  | [], _, _ => some []
  | e :: rest, ts, f =>
    if e.timestamp = ts then (f e).map (· :: rest)
    else (updateFirst rest ts f).map (e :: ·)

/-- Process one record of the `get_word_tags` loop (lines 321-343): create the
bucket on first sight, bump the channel counter (may fault), bump the total,
then record search-word matches. -/
def recordStep (sw : String) (mc : List MentionEntry) (r : Record) :
    Option (List MentionEntry) :=
  let mc1 :=
    if mc.any (fun e => e.timestamp = r.timestamp) then mc
    else mc ++ [initMention r.timestamp sw]
  updateFirst mc1 r.timestamp (fun e =>
    (channelAdd e r.tag r.occurrence_count).map (fun e1 =>
      searchUpdate sw r { e1 with total := e1.total + r.occurrence_count }))

/-- The whole record loop, threading `mention_counts` and short-circuiting on
the first faulting record (an uncaught Python exception). -/
def buildMentions (sw : String) : List MentionEntry → List Record →
    Option (List MentionEntry)
  | mc, [] => some mc
  | mc, r :: rs =>
    match recordStep sw mc r with
    | some mc' => buildMentions sw mc' rs
    | none => none

/-- The aggregation of the `/word_tags` endpoint: the final loop only flattens
`{"timestamp": k, **v}` per dict entry in insertion order, which the
`MentionEntry` list already is. -/
def word_tags_result (records : List Record) (sw : String) :
    Option (List MentionEntry) :=
  buildMentions sw [] records

/-- Outcome of `fetch_word_corrections_from_db`: Python `None`, a list of
rows, or a raised `ConnectionError`. -/
inductive FetchResult where
  | absent : FetchResult
  | rows : List Record → FetchResult
  | connectionError : FetchResult
deriving DecidableEq, Repr

/-- Observable response of the `/rank` handler. `uncaught` models an
exception that escapes the handler (FastAPI then produces a server error). -/
inductive RankResponse where
  | ok : List RankBucket → RankResponse
  | noContent : RankResponse
  | serverError : String → RankResponse
  | uncaught : RankResponse
deriving DecidableEq, Repr

/-- Observable response of the `/word_tags` handler. -/
inductive MentionResponse where
  | ok : List MentionEntry → MentionResponse
  | noContent : MentionResponse
  | serverError : String → MentionResponse
  | uncaught : MentionResponse
deriving DecidableEq, Repr

/-- The `/rank` handler (lines 133-211). `startMalformed`/`endMalformed` say
whether the respective nonempty time string makes `datetime.strptime` raise;
that `ValueError` is not caught (only `ConnectionError` is), so it escapes.
`if not raw_data:` treats both `None` and an empty list as no data → 204. -/
def get_rank (startMalformed endMalformed : Bool) (fetch : FetchResult)
    (tag : Option String) : RankResponse :=
  if startMalformed then RankResponse.uncaught
  else if endMalformed then RankResponse.uncaught
  else
    match fetch with
    | FetchResult.connectionError =>
        RankResponse.serverError "Unable to connect to the database."
    | FetchResult.absent => RankResponse.noContent
    | FetchResult.rows rs =>
        if rs.isEmpty then RankResponse.noContent
        else RankResponse.ok (rankResult rs tag)

/-- The `/word_tags` handler (lines 300-357). Unlike `/rank`, its no-data
check is `if raw_data is None:` — an empty row list is *not* caught and flows
into the loop, producing a 200 response with an empty array. A faulting
aggregation (unknown channel key) escapes as an uncaught exception. -/
def get_word_tags (startMalformed endMalformed : Bool) (fetch : FetchResult)
    (search_word : String) : MentionResponse :=
  if startMalformed then MentionResponse.uncaught
  else if endMalformed then MentionResponse.uncaught
  else
    match fetch with
    | FetchResult.connectionError =>
        MentionResponse.serverError "Unable to connect to the database."
    | FetchResult.absent => MentionResponse.noContent
    | FetchResult.rows rs =>
        match word_tags_result rs search_word with
        | some out => MentionResponse.ok out
        | none => MentionResponse.uncaught

/-- Modelled from the spec: "scan the sorted list and keep the first entry
encountered for each distinct `rank` value (later entries with an
already-seen rank are dropped)". Used to compare the implementation's
dedup/truncate loop against the spec's description. -/
def specFirstPerRank : List WordEntry → List Nat → List WordEntry
  | [], _ => []
  | w :: ws, seen =>
    if seen.contains w.rank then specFirstPerRank ws seen
    else w :: specFirstPerRank ws (w.rank :: seen)

/-- Modelled from the spec: the distinct values of a list in the order each
one was first encountered. -/
def feoAux (acc : List String) : List String → List String
  | [] => acc
  | t :: ts => feoAux (if acc.any (fun u => u = t) then acc else acc ++ [t]) ts

/-- First-encountered order of the distinct elements of a list. -/
def firstEncounteredOrder (l : List String) : List String := feoAux [] l

/-! Basic properties of the comparators. -/

theorem charsLE_cons_iff {a b : Char} {as bs : List Char} :
    charsLE (a :: as) (b :: bs) = true ↔
      a.toNat < b.toNat ∨ (a.toNat = b.toNat ∧ charsLE as bs = true) := by
  simp only [charsLE]
  by_cases h1 : a.toNat < b.toNat
  · simp [h1]
  · by_cases h2 : b.toNat < a.toNat
    · simp only [if_neg h1, if_pos h2]
      constructor
      · intro h; exact absurd h (by simp)
      · rintro (h | ⟨h, -⟩) <;> omega
    · have he : a.toNat = b.toNat := by omega
      simp [h1, h2, he]

theorem charsLE_total : ∀ a b : List Char, (charsLE a b || charsLE b a) = true
  | [], b => by simp [charsLE]
  | _ :: _, [] => by simp [charsLE]
  | a :: as, b :: bs => by
    simp only [Bool.or_eq_true, charsLE_cons_iff]
    rcases Nat.lt_trichotomy a.toNat b.toNat with h | h | h
    · exact Or.inl (Or.inl h)
    · have h' := charsLE_total as bs
      rw [Bool.or_eq_true] at h'
      rcases h' with hh | hh
      · exact Or.inl (Or.inr ⟨h, hh⟩)
      · exact Or.inr (Or.inr ⟨h.symm, hh⟩)
    · exact Or.inr (Or.inl h)

theorem charsLE_trans : ∀ a b c : List Char,
    charsLE a b = true → charsLE b c = true → charsLE a c = true
  | [], _, _, _, _ => by simp [charsLE]
  | _ :: _, [], _, h1, _ => by simp [charsLE] at h1
  | _ :: _, _ :: _, [], _, h2 => by simp [charsLE] at h2
  | a :: as, b :: bs, c :: cs, h1, h2 => by
    rw [charsLE_cons_iff] at h1 h2 ⊢
    rcases h1 with h1 | ⟨h1e, h1r⟩
    · rcases h2 with h2 | ⟨h2e, -⟩
      · exact Or.inl (by omega)
      · exact Or.inl (by omega)
    · rcases h2 with h2 | ⟨h2e, h2r⟩
      · exact Or.inl (by omega)
      · exact Or.inr ⟨by omega, charsLE_trans as bs cs h1r h2r⟩

theorem strLE_total (a b : String) : (strLE a b || strLE b a) = true :=
  charsLE_total a.data b.data

theorem strLE_trans {a b c : String} (h1 : strLE a b = true) (h2 : strLE b c = true) :
    strLE a c = true :=
  charsLE_trans a.data b.data c.data h1 h2

theorem bucketLE_trans : ∀ a b c : String × TagMap,
    bucketLE a b → bucketLE b c → bucketLE a c := fun _ _ _ h1 h2 => strLE_trans h1 h2

theorem bucketLE_total : ∀ a b : String × TagMap, (bucketLE a b || bucketLE b a) = true :=
  fun a b => strLE_total a.1 b.1

theorem countLE_trans : ∀ a b c : WordEntry, countLE a b → countLE b c → countLE a c := by
  intro a b c h1 h2
  simp only [countLE, decide_eq_true_eq] at h1 h2 ⊢
  omega

theorem countLE_total : ∀ a b : WordEntry, (countLE a b || countLE b a) = true := by
  intro a b
  simp only [countLE, Bool.or_eq_true, decide_eq_true_eq]
  omega

/-! The dedup/truncate loop computes the spec's first-per-rank scan, truncated. -/

theorem rankLoop_eq : ∀ (ws : List WordEntry) (seen : List Nat) (acc : List WordEntry),
    acc.length < 10 →
    rankLoop ws seen acc = acc ++ (specFirstPerRank ws seen).take (10 - acc.length)
  | [], seen, acc, _ => by simp [rankLoop, specFirstPerRank]
  | w :: ws, seen, acc, h => by
    simp only [rankLoop, specFirstPerRank]
    by_cases hc : seen.contains w.rank = true
    · rw [if_pos hc, if_pos hc, if_neg (by omega : ¬ acc.length ≥ 10)]
      exact rankLoop_eq ws seen acc h
    · rw [if_neg hc, if_neg hc]
      rcases Nat.lt_or_ge (acc ++ [w]).length 10 with h10 | h10
      · rw [if_neg (by omega : ¬ (acc ++ [w]).length ≥ 10)]
        rw [rankLoop_eq ws (w.rank :: seen) (acc ++ [w]) h10]
        have hlen : (acc ++ [w]).length = acc.length + 1 := by simp
        have harr : 10 - acc.length = (10 - (acc.length + 1)) + 1 := by omega
        rw [harr, List.take_succ_cons, hlen, List.append_assoc]
        rfl
      · rw [if_pos h10]
        have harr : 10 - acc.length = 1 := by
          simp only [List.length_append, List.length_singleton] at h10; omega
        rw [harr, List.take_succ_cons, List.take_zero]
  termination_by ws => ws.length

theorem topWords_eq (ws : List WordEntry) :
    topWords ws = (specFirstPerRank (ws.mergeSort countLE) []).take 10 := by
  have h := rankLoop_eq (ws.mergeSort countLE) [] [] (by simp)
  simpa [topWords] using h

theorem specFirstPerRank_sublist : ∀ (ws : List WordEntry) (seen : List Nat),
    List.Sublist (specFirstPerRank ws seen) ws
  | [], _ => by simp [specFirstPerRank]
  | w :: ws, seen => by
    simp only [specFirstPerRank]
    by_cases hc : seen.contains w.rank = true
    · rw [if_pos hc]
      exact (specFirstPerRank_sublist ws seen).cons w
    · rw [if_neg hc]
      exact (specFirstPerRank_sublist ws _).cons₂ w

theorem specFirstPerRank_ranks : ∀ (ws : List WordEntry) (seen : List Nat),
    ((specFirstPerRank ws seen).map WordEntry.rank).Nodup ∧
    ∀ w ∈ specFirstPerRank ws seen, ¬ w.rank ∈ seen
  | [], _ => by simp [specFirstPerRank]
  | w :: ws, seen => by
    simp only [specFirstPerRank]
    by_cases hc : seen.contains w.rank = true
    · rw [if_pos hc]
      exact specFirstPerRank_ranks ws seen
    · rw [if_neg hc]
      obtain ⟨hnd, hni⟩ := specFirstPerRank_ranks ws (w.rank :: seen)
      refine ⟨List.nodup_cons.2 ⟨?_, hnd⟩, ?_⟩
      · intro hmem
        obtain ⟨w', hw', hrk⟩ := List.mem_map.1 hmem
        exact hni w' hw' (hrk ▸ List.mem_cons_self _ _)
      · intro w' hw'
        rcases List.mem_cons.1 hw' with rfl | hw'
        · simpa using hc
        · exact fun hs => hni w' hw' (List.mem_cons_of_mem _ hs)

theorem topWords_sublist (ws : List WordEntry) :
    List.Sublist (topWords ws) (ws.mergeSort countLE) := by
  rw [topWords_eq]
  exact (List.take_sublist _ _).trans (specFirstPerRank_sublist _ _)

theorem mem_topWords {w : WordEntry} {ws : List WordEntry} (h : w ∈ topWords ws) : w ∈ ws := by
  exact List.mem_mergeSort.1 ((topWords_sublist ws).mem h)

theorem topWords_length (ws : List WordEntry) : (topWords ws).length ≤ 10 := by
  rw [topWords_eq]
  simp

theorem topWords_ranks_nodup (ws : List WordEntry) :
    ((topWords ws).map WordEntry.rank).Nodup := by
  rw [topWords_eq, List.map_take]
  exact (List.take_sublist _ _).nodup (specFirstPerRank_ranks (ws.mergeSort countLE) []).1

/-! Sortedness and stability facts inherited from `mergeSort`. -/

theorem sortedBuckets_pairwise (records : List Record) :
    (sortedBuckets records).Pairwise (fun a b => bucketLE a b = true) :=
  List.sorted_mergeSort bucketLE_trans bucketLE_total (processed_data records)

theorem sortedWords_pairwise (ws : List WordEntry) :
    (ws.mergeSort countLE).Pairwise (fun a b => countLE a b = true) :=
  List.sorted_mergeSort countLE_trans countLE_total ws

theorem topWords_pairwise (ws : List WordEntry) :
    (topWords ws).Pairwise (fun a b => b.occurrence_count ≤ a.occurrence_count) :=
  (((sortedWords_pairwise ws).sublist (topWords_sublist ws))).imp
    (fun h => by simpa [countLE] using h)

/-- Stability of the stable descending sort: the subsequence of entries at any
fixed occurrence count is untouched by the sort. -/
theorem mergeSort_filter_count (ws : List WordEntry) (c : Nat) :
    (ws.mergeSort countLE).filter (fun w => w.occurrence_count == c) =
      ws.filter (fun w => w.occurrence_count == c) := by
  have hpw : (ws.filter (fun w => w.occurrence_count == c)).Pairwise
      (fun a b => countLE a b = true) := by
    refine List.pairwise_iff_forall_sublist.2 ?_
    intro a b hsub
    have ha := List.mem_filter.1 (hsub.subset (List.mem_cons_self a [b]))
    have hb := List.mem_filter.1 (hsub.subset (List.mem_cons_of_mem a (List.mem_cons_self b [])))
    simp only [beq_iff_eq] at ha hb
    simp [countLE, ha.2, hb.2]
  have hsub : List.Sublist (ws.filter (fun w => w.occurrence_count == c))
      ((ws.mergeSort countLE).filter (fun w => w.occurrence_count == c)) := by
    have h1 : List.Sublist (ws.filter (fun w => w.occurrence_count == c))
        (ws.mergeSort countLE) := by
      exact List.sublist_mergeSort countLE_trans countLE_total hpw
        (List.filter_sublist ws)
    have h2 := h1.filter (fun w => w.occurrence_count == c)
    simpa [List.filter_filter] using h2
  have hperm : ((ws.mergeSort countLE).filter (fun w => w.occurrence_count == c)).length =
      (ws.filter (fun w => w.occurrence_count == c)).length :=
    ((List.mergeSort_perm ws countLE).filter _).length_eq
  exact (hsub.eq_of_length hperm.symm).symm

/-! Soundness of the grouping dict: everything in `processed_data` comes from a
record with the matching timestamp and tag. -/

/-- Every key and entry of a tag map is justified by some record of `rs` with
bucket timestamp `ts`. -/
def SoundTM (rs : List Record) (ts : String) (tm : TagMap) : Prop :=
  ∀ tg ws, (tg, ws) ∈ tm →
    (∃ r, r ∈ rs ∧ r.timestamp = ts ∧ r.tag = tg) ∧
    ∀ e ∈ ws, ∃ r, r ∈ rs ∧ r.timestamp = ts ∧ r.tag = tg ∧ entryOf r = e

/-- Every bucket of the grouping dict is justified by records of `rs`. -/
def SoundPD (rs : List Record) (pd : ProcData) : Prop :=
  ∀ ts tm, (ts, tm) ∈ pd → SoundTM rs ts tm

theorem soundTM_appendWord {rs : List Record} {ts : String} {tm : TagMap}
    {tg0 : String} {e0 : WordEntry}
    (h : SoundTM rs ts tm)
    (h0 : ∃ r, r ∈ rs ∧ r.timestamp = ts ∧ r.tag = tg0 ∧ entryOf r = e0) :
    SoundTM rs ts (appendWord tm tg0 e0) := by
  induction tm with
  | nil =>
    intro tg ws hmem
    simp only [appendWord, List.mem_singleton, Prod.mk.injEq] at hmem
    obtain ⟨rfl, rfl⟩ := hmem
    obtain ⟨r, hr, hts, htg, he⟩ := h0
    exact ⟨⟨r, hr, hts, htg⟩, by
      intro e he'
      simp only [List.mem_singleton] at he'
      exact ⟨r, hr, hts, htg, he' ▸ he⟩⟩
  | cons p rest ih =>
    obtain ⟨t, ws0⟩ := p
    intro tg ws hmem
    simp only [appendWord] at hmem
    by_cases htt : t = tg0
    · rw [if_pos htt] at hmem
      rcases List.mem_cons.1 hmem with heq | hmem'
      · simp only [Prod.mk.injEq] at heq
        obtain ⟨rfl, rfl⟩ := heq
        have hhead := h tg ws0 (List.mem_cons_self _ _)
        refine ⟨hhead.1, ?_⟩
        intro e he'
        rcases List.mem_append.1 he' with he' | he'
        · exact hhead.2 e he'
        · obtain ⟨r, hr, hts, htg, he⟩ := h0
          simp only [List.mem_singleton] at he'
          exact ⟨r, hr, hts, htt ▸ htg, he' ▸ he⟩
      · exact h tg ws (List.mem_cons_of_mem _ hmem')
    · rw [if_neg htt] at hmem
      rcases List.mem_cons.1 hmem with heq | hmem'
      · exact h tg ws (heq ▸ List.mem_cons_self _ _)
      · have hrest : SoundTM rs ts rest := fun tg' ws' hm =>
          h tg' ws' (List.mem_cons_of_mem _ hm)
        exact ih hrest tg ws hmem'

theorem soundPD_insertRecord {rs : List Record} {pd : ProcData} {r0 : Record}
    (h : SoundPD rs pd) (h0 : r0 ∈ rs) : SoundPD rs (insertRecord pd r0) := by
  induction pd with
  | nil =>
    intro ts tm hmem
    simp only [insertRecord, List.mem_singleton, Prod.mk.injEq] at hmem
    obtain ⟨rfl, rfl⟩ := hmem
    intro tg ws hmem'
    simp only [List.mem_singleton, Prod.mk.injEq] at hmem'
    obtain ⟨rfl, rfl⟩ := hmem'
    exact ⟨⟨r0, h0, rfl, rfl⟩, by
      intro e he
      simp only [List.mem_singleton] at he
      exact ⟨r0, h0, rfl, rfl, he ▸ rfl⟩⟩
  | cons p rest ih =>
    obtain ⟨ts0, tm0⟩ := p
    intro ts tm hmem
    simp only [insertRecord] at hmem
    by_cases hts : ts0 = r0.timestamp
    · rw [if_pos hts] at hmem
      rcases List.mem_cons.1 hmem with heq | hmem'
      · simp only [Prod.mk.injEq] at heq
        obtain ⟨rfl, rfl⟩ := heq
        exact soundTM_appendWord (h ts tm0 (List.mem_cons_self _ _))
          ⟨r0, h0, hts.symm, rfl, rfl⟩
      · exact h ts tm (List.mem_cons_of_mem _ hmem')
    · rw [if_neg hts] at hmem
      rcases List.mem_cons.1 hmem with heq | hmem'
      · exact h ts tm (heq ▸ List.mem_cons_self _ _)
      · have hrest : SoundPD rs rest := fun ts' tm' hm =>
          h ts' tm' (List.mem_cons_of_mem _ hm)
        exact ih hrest ts tm hmem'

theorem soundPD_buildProcessed {rs : List Record} :
    ∀ (rest : List Record) (pd : ProcData), SoundPD rs pd →
      (∀ r ∈ rest, r ∈ rs) → SoundPD rs (buildProcessed pd rest)
  | [], pd, h, _ => h
  | r :: rest, pd, h, hsub => by
    simp only [buildProcessed]
    exact soundPD_buildProcessed rest (insertRecord pd r)
      (soundPD_insertRecord h (hsub r (List.mem_cons_self _ _)))
      (fun r' hr' => hsub r' (List.mem_cons_of_mem _ hr'))

theorem soundPD_processed (records : List Record) :
    SoundPD records (processed_data records) :=
  soundPD_buildProcessed records [] (fun _ _ h => by simp at h) (fun _ h => h)

theorem soundPD_sortedBuckets (records : List Record) :
    SoundPD records (sortedBuckets records) := by
  intro ts tm hmem
  exact soundPD_processed records ts tm (List.mem_mergeSort.1 hmem)

theorem lookupTag_mem : ∀ (tm : TagMap) (t : String) (ws : List WordEntry),
    lookupTag tm t = some ws → (t, ws) ∈ tm
  | [], _, _, h => by simp [lookupTag] at h
  | (t0, ws0) :: rest, t, ws, h => by
    simp only [lookupTag] at h
    by_cases ht : t0 = t
    · rw [if_pos ht] at h
      obtain rfl := Option.some.inj h
      exact ht ▸ List.mem_cons_self _ _
    · rw [if_neg ht] at h
      exact List.mem_cons_of_mem _ (lookupTag_mem rest t ws h)

theorem all_words_eq : ∀ (tm : TagMap) (acc : List WordEntry),
    tm.foldl (fun acc p => acc ++ p.2) acc = acc ++ (tm.map Prod.snd).flatten
  | [], acc => by simp
  | p :: rest, acc => by
    simp only [List.foldl_cons, List.map_cons, List.flatten_cons]
    rw [all_words_eq rest (acc ++ p.2), List.append_assoc]

theorem mem_all_words {e : WordEntry} {tm : TagMap} (h : e ∈ all_words tm) :
    ∃ p ∈ tm, e ∈ p.2 := by
  rw [all_words, all_words_eq, List.nil_append] at h
  obtain ⟨l, hl, hel⟩ := List.mem_flatten.1 h
  obtain ⟨p, hp, rfl⟩ := List.mem_map.1 hl
  exact ⟨p, hp, hel⟩

/-! Facts about the mention aggregation. -/

theorem channelAdd_timestamp {e e' : MentionEntry} {t : String} {occ : Nat}
    (h : channelAdd e t occ = some e') : e'.timestamp = e.timestamp := by
  simp only [channelAdd] at h
  split_ifs at h <;>
    first
      | (obtain rfl := Option.some.inj h; rfl)
      | exact absurd h (by simp)

theorem channelAdd_channels {e e' : MentionEntry} {t : String} {occ : Nat}
    (ht : t = "news" ∨ t = "webtoon" ∨ t = "youtube")
    (h : channelAdd e t occ = some e') :
    e'.news + e'.webtoon + e'.youtube = e.news + e.webtoon + e.youtube + occ ∧
    e'.total = e.total := by
  rcases ht with rfl | rfl | rfl <;>
    · simp only [channelAdd] at h
      split_ifs at h <;> simp_all <;> (subst h; constructor <;> (simp; try omega))

theorem searchUpdate_fields (sw : String) (r : Record) (e : MentionEntry) :
    (searchUpdate sw r e).timestamp = e.timestamp ∧
    (searchUpdate sw r e).total = e.total ∧
    (searchUpdate sw r e).news = e.news ∧
    (searchUpdate sw r e).webtoon = e.webtoon ∧
    (searchUpdate sw r e).youtube = e.youtube := by
  simp only [searchUpdate]
  split_ifs <;> simp

theorem updateFirst_timestamps {f : MentionEntry → Option MentionEntry}
    (hf : ∀ e e', f e = some e' → e'.timestamp = e.timestamp) :
    ∀ (mc mc' : List MentionEntry) (ts : String),
      updateFirst mc ts f = some mc' →
      mc'.map MentionEntry.timestamp = mc.map MentionEntry.timestamp
  | [], mc', ts, h => by
    obtain rfl := Option.some.inj h
    rfl
  | e :: rest, mc', ts, h => by
    simp only [updateFirst] at h
    by_cases hts : e.timestamp = ts
    · rw [if_pos hts] at h
      obtain ⟨e', he', rfl⟩ := Option.map_eq_some'.1 h
      simp [hf e e' he']
    · rw [if_neg hts] at h
      obtain ⟨rest', hrest', rfl⟩ := Option.map_eq_some'.1 h
      simp [updateFirst_timestamps hf rest rest' ts hrest']

theorem updateFirst_inv {P : MentionEntry → Prop} {f : MentionEntry → Option MentionEntry}
    (hf : ∀ e e', P e → f e = some e' → P e') :
    ∀ (mc mc' : List MentionEntry) (ts : String),
      (∀ e ∈ mc, P e) → updateFirst mc ts f = some mc' → ∀ e ∈ mc', P e
  | [], mc', ts, _, h => by
    obtain rfl := Option.some.inj h
    simp
  | e :: rest, mc', ts, hall, h => by
    simp only [updateFirst] at h
    by_cases hts : e.timestamp = ts
    · rw [if_pos hts] at h
      obtain ⟨e', he', rfl⟩ := Option.map_eq_some'.1 h
      intro x hx
      rcases List.mem_cons.1 hx with rfl | hx
      · exact hf e x (hall e (List.mem_cons_self _ _)) he'
      · exact hall x (List.mem_cons_of_mem _ hx)
    · rw [if_neg hts] at h
      obtain ⟨rest', hrest', rfl⟩ := Option.map_eq_some'.1 h
      intro x hx
      rcases List.mem_cons.1 hx with rfl | hx
      · exact hall x (List.mem_cons_self _ _)
      · exact updateFirst_inv hf rest rest' ts
          (fun y hy => hall y (List.mem_cons_of_mem _ hy)) hrest' x hx

/-- The per-record update function used by `recordStep` preserves the
timestamp of the entry it touches. -/
theorem stepFun_timestamp (sw : String) (r : Record) :
    ∀ e e', ((channelAdd e r.tag r.occurrence_count).map (fun e1 =>
        searchUpdate sw r { e1 with total := e1.total + r.occurrence_count })) = some e' →
      e'.timestamp = e.timestamp := by
  intro e e' h
  obtain ⟨e1, he1, rfl⟩ := Option.map_eq_some'.1 h
  have h1 := (searchUpdate_fields sw r { e1 with total := e1.total + r.occurrence_count }).1
  have h2 : ({ e1 with total := e1.total + r.occurrence_count } : MentionEntry).timestamp
      = e1.timestamp := rfl
  rw [h1, h2]
  exact channelAdd_timestamp he1

theorem recordStep_timestamps {sw : String} {mc mc' : List MentionEntry} {r : Record}
    (h : recordStep sw mc r = some mc') :
    mc'.map MentionEntry.timestamp =
      (if mc.any (fun e => e.timestamp = r.timestamp) then mc.map MentionEntry.timestamp
       else mc.map MentionEntry.timestamp ++ [r.timestamp]) := by
  simp only [recordStep] at h
  by_cases hany : mc.any (fun e => decide (e.timestamp = r.timestamp)) = true
  · rw [if_pos hany] at h
    rw [updateFirst_timestamps (stepFun_timestamp sw r) _ _ _ h]
    simp only [hany, if_pos]
  · rw [if_neg hany] at h
    rw [updateFirst_timestamps (stepFun_timestamp sw r) _ _ _ h]
    simp only [hany, if_neg, List.map_append]
    rfl

/-- The running invariant of the mention summary: the grand total is the sum
of the three channel counters. -/
def MInv (e : MentionEntry) : Prop := e.total = e.news + e.webtoon + e.youtube

theorem stepFun_minv {sw : String} {r : Record}
    (htag : r.tag = "news" ∨ r.tag = "webtoon" ∨ r.tag = "youtube") :
    ∀ e e', MInv e → ((channelAdd e r.tag r.occurrence_count).map (fun e1 =>
        searchUpdate sw r { e1 with total := e1.total + r.occurrence_count })) = some e' →
      MInv e' := by
  intro e e' hP h
  obtain ⟨e1, he1, rfl⟩ := Option.map_eq_some'.1 h
  obtain ⟨hsum, htot⟩ := channelAdd_channels htag he1
  obtain ⟨-, h2, h3, h4, h5⟩ :=
    searchUpdate_fields sw r { e1 with total := e1.total + r.occurrence_count }
  unfold MInv at hP ⊢
  rw [h2, h3, h4, h5]
  simp only
  omega

theorem recordStep_minv {sw : String} {mc mc' : List MentionEntry} {r : Record}
    (htag : r.tag = "news" ∨ r.tag = "webtoon" ∨ r.tag = "youtube")
    (hmc : ∀ e ∈ mc, MInv e) (h : recordStep sw mc r = some mc') :
    ∀ e ∈ mc', MInv e := by
  simp only [recordStep] at h
  set mc1 := if mc.any (fun e => decide (e.timestamp = r.timestamp)) = true then mc
    else mc ++ [initMention r.timestamp sw] with hmc1
  have hall : ∀ e ∈ mc1, MInv e := by
    rw [hmc1]
    split_ifs with hc
    · exact hmc
    · intro e he
      rcases List.mem_append.1 he with he | he
      · exact hmc e he
      · simp only [List.mem_singleton] at he
        subst he
        simp [MInv, initMention]
  exact updateFirst_inv (stepFun_minv htag) mc1 mc' r.timestamp hall h

theorem buildMentions_minv : ∀ (rs : List Record) (sw : String) (mc out : List MentionEntry),
    (∀ r ∈ rs, r.tag = "news" ∨ r.tag = "webtoon" ∨ r.tag = "youtube") →
    (∀ e ∈ mc, MInv e) → buildMentions sw mc rs = some out → ∀ e ∈ out, MInv e
  | [], sw, mc, out, _, hmc, h => by
    obtain rfl := Option.some.inj h
    exact hmc
  | r :: rs, sw, mc, out, htags, hmc, h => by
    simp only [buildMentions] at h
    rcases hstep : recordStep sw mc r with _ | mc1
    · rw [hstep] at h; exact absurd h (by simp)
    · rw [hstep] at h
      exact buildMentions_minv rs sw mc1 out
        (fun r' hr' => htags r' (List.mem_cons_of_mem _ hr'))
        (recordStep_minv (htags r (List.mem_cons_self _ _)) hmc hstep) h

theorem buildMentions_timestamps :
    ∀ (rs : List Record) (sw : String) (mc out : List MentionEntry),
      buildMentions sw mc rs = some out →
      out.map MentionEntry.timestamp =
        feoAux (mc.map MentionEntry.timestamp) (rs.map Record.timestamp)
  | [], sw, mc, out, h => by
    obtain rfl := Option.some.inj h
    rfl
  | r :: rs, sw, mc, out, h => by
    simp only [buildMentions] at h
    rcases hstep : recordStep sw mc r with _ | mc1
    · rw [hstep] at h; exact absurd h (by simp)
    · rw [hstep] at h
      rw [buildMentions_timestamps rs sw mc1 out h]
      simp only [List.map_cons, feoAux]
      rw [recordStep_timestamps hstep]
      congr 1
      simp [List.any_map, Function.comp]

theorem feoAux_nodup : ∀ (ts : List String) (acc : List String),
    acc.Nodup → (feoAux acc ts).Nodup
  | [], acc, h => h
  | t :: ts, acc, h => by
    simp only [feoAux]
    apply feoAux_nodup ts
    by_cases hc : acc.any (fun u => decide (u = t)) = true
    · rwa [if_pos hc]
    · rw [if_neg hc]
      simp only [List.any_eq_true, decide_eq_true_eq, not_exists, not_and] at hc
      rw [List.nodup_append]
      exact ⟨h, List.nodup_singleton t, by
        intro a ha hb
        simp only [List.mem_singleton] at hb
        exact hc a ha hb⟩

theorem bucketOut_timestamp {tag : Option String} {p : String × TagMap} {b : RankBucket}
    (h : bucketOut tag p = some b) : b.timestamp = p.1 := by
  obtain ⟨ws, hws, rfl⟩ := Option.map_eq_some'.1 h
  rfl

/-- C1: in every entry list emitted by the ranking aggregation all `rank`
values are distinct, and the list kept is exactly the first-encountered entry
per distinct rank of the occurrence-count-descending scan (later entries with
an already-seen rank are dropped), truncated to ten. -/
theorem rank_dedup_first_per_rank (records : List Record) (tag : Option String) :
    (∀ b ∈ rankResult records tag, (b.words.map WordEntry.rank).Nodup) ∧
    (∀ p ∈ sortedBuckets records, ∀ ws, scanWords tag p.2 = some ws →
      bucketOut tag p = some ⟨p.1, outKey tag,
        (specFirstPerRank (ws.mergeSort countLE) []).take 10⟩) := by
  constructor
  · intro b hb
    obtain ⟨p, hp, hbo⟩ := List.mem_filterMap.1 hb
    obtain ⟨ws, hws, rfl⟩ := Option.map_eq_some'.1 hbo
    exact topWords_ranks_nodup ws
  · intro p hp ws hws
    simp [bucketOut, hws, topWords_eq]

/-- Witness for C1: two records in the same bucket share rank 1 across
different tags and different word pairs; the emitted list keeps only the
first-scanned one, so its rank list is duplicate-free. -/
theorem rank_dedup_first_per_rank_witness :
    ((RankBucket.mk "t" "total" [⟨"a", "b", 5, 1⟩]).words.map WordEntry.rank).Nodup :=
  (rank_dedup_first_per_rank
    [⟨"t", "a", "b", "news", 5, 1⟩, ⟨"t", "c", "d", "webtoon", 3, 1⟩] none).1
    ⟨"t", "total", [⟨"a", "b", 5, 1⟩]⟩ (by
      simp [rankResult, sortedBuckets, processed_data, buildProcessed, insertRecord,
        appendWord, entryOf, bucketOut, scanWords, outKey, all_words, topWords,
        rankLoop, bucketLE, strLE, charsLE, lookupTag,
        List.mergeSort, List.splitInTwo, List.merge, countLE])

/-- C2: every entry list emitted by the ranking aggregation, in either mode,
has at most ten entries. -/
theorem rank_truncation_le_ten (records : List Record) (tag : Option String) :
    ∀ b ∈ rankResult records tag, b.words.length ≤ 10 := by
  intro b hb
  obtain ⟨p, hp, hbo⟩ := List.mem_filterMap.1 hb
  obtain ⟨ws, hws, rfl⟩ := Option.map_eq_some'.1 hbo
  exact topWords_length ws

/-- Witness for C2: eleven records in one bucket are truncated to ten. -/
theorem rank_truncation_le_ten_witness :
    (RankBucket.mk "t" "total"
      [⟨"a", "b", 11, 1⟩, ⟨"a", "b", 10, 2⟩, ⟨"a", "b", 9, 3⟩, ⟨"a", "b", 8, 4⟩,
       ⟨"a", "b", 7, 5⟩, ⟨"a", "b", 6, 6⟩, ⟨"a", "b", 5, 7⟩, ⟨"a", "b", 4, 8⟩,
       ⟨"a", "b", 3, 9⟩, ⟨"a", "b", 2, 10⟩]).words.length ≤ 10 :=
  rank_truncation_le_ten
    [⟨"t", "a", "b", "news", 11, 1⟩, ⟨"t", "a", "b", "news", 10, 2⟩,
     ⟨"t", "a", "b", "news", 9, 3⟩, ⟨"t", "a", "b", "news", 8, 4⟩,
     ⟨"t", "a", "b", "news", 7, 5⟩, ⟨"t", "a", "b", "news", 6, 6⟩,
     ⟨"t", "a", "b", "news", 5, 7⟩, ⟨"t", "a", "b", "news", 4, 8⟩,
     ⟨"t", "a", "b", "news", 3, 9⟩, ⟨"t", "a", "b", "news", 2, 10⟩,
     ⟨"t", "a", "b", "news", 1, 11⟩] none _ (by
      simp [rankResult, sortedBuckets, processed_data, buildProcessed, insertRecord,
        appendWord, entryOf, bucketOut, scanWords, outKey, all_words, topWords,
        rankLoop, bucketLE, strLE, charsLE, lookupTag,
        List.mergeSort, List.splitInTwo, List.merge, countLE])

/-- C3: output buckets come in non-decreasing (lexicographic) timestamp
order; within one emitted list occurrence counts are non-increasing; and for
each fixed count value the kept entries form a subsequence of the bucket's
scan list in its original order (stable ties). -/
theorem rank_output_ordering (records : List Record) (tag : Option String) :
    List.Chain' (fun a b => strLE a.timestamp b.timestamp = true)
      (rankResult records tag) ∧
    (∀ b ∈ rankResult records tag,
      b.words.Pairwise (fun a b => b.occurrence_count ≤ a.occurrence_count)) ∧
    (∀ p ∈ sortedBuckets records, ∀ ws, scanWords tag p.2 = some ws → ∀ b,
      bucketOut tag p = some b → ∀ c : Nat,
        List.Sublist (b.words.filter (fun w => w.occurrence_count == c))
          (ws.filter (fun w => w.occurrence_count == c))) := by
  refine ⟨?_, ?_, ?_⟩
  · apply List.Pairwise.chain'
    apply List.Pairwise.filterMap (bucketOut tag)
      (R := fun a b => bucketLE a b = true)
    · intro p q hpq b hb b' hb'
      rw [bucketOut_timestamp hb, bucketOut_timestamp hb']
      exact hpq
    · exact sortedBuckets_pairwise records
  · intro b hb
    obtain ⟨p, hp, hbo⟩ := List.mem_filterMap.1 hb
    obtain ⟨ws, hws, rfl⟩ := Option.map_eq_some'.1 hbo
    exact topWords_pairwise ws
  · intro p hp ws hws b hb c
    obtain ⟨ws1, hws1, rfl⟩ := Option.map_eq_some'.1 hb
    rw [hws] at hws1
    obtain rfl := Option.some.inj hws1
    have h1 := (topWords_sublist ws).filter (fun w => w.occurrence_count == c)
    rw [mergeSort_filter_count] at h1
    exact h1

/-- Witness for C3: a bucket with a count tie keeps both entries in
non-increasing count order. -/
theorem rank_output_ordering_witness :
    (RankBucket.mk "t" "total" [⟨"a", "b", 5, 1⟩, ⟨"c", "d", 5, 2⟩]).words.Pairwise
      (fun a b => b.occurrence_count ≤ a.occurrence_count) :=
  (rank_output_ordering
    [⟨"t", "a", "b", "news", 5, 1⟩, ⟨"t", "c", "d", "webtoon", 5, 2⟩] none).2.1
    ⟨"t", "total", [⟨"a", "b", 5, 1⟩, ⟨"c", "d", 5, 2⟩]⟩ (by
      simp [rankResult, sortedBuckets, processed_data, buildProcessed, insertRecord,
        appendWord, entryOf, bucketOut, scanWords, outKey, all_words, topWords,
        rankLoop, bucketLE, strLE, charsLE, lookupTag,
        List.mergeSort, List.splitInTwo, List.merge, countLE])

/-- C4: with a (truthy) requested tag, a bucket lacking that tag is omitted
from the output entirely, and if no record at all carries the tag the
aggregation result is the empty list. -/
theorem tag_filter_omits_buckets (records : List Record) (t : String) (ht : t ≠ "") :
    (∀ p ∈ sortedBuckets records, lookupTag p.2 t = none →
      bucketOut (some t) p = none) ∧
    ((∀ r ∈ records, r.tag ≠ t) → rankResult records (some t) = []) := by
  constructor
  · intro p hp hlk
    simp [bucketOut, scanWords, ht, hlk]
  · intro hnone
    rw [rankResult, List.filterMap_eq_nil_iff]
    intro p hp
    rcases hws : lookupTag p.2 t with _ | ws
    · simp [bucketOut, scanWords, ht, hws]
    · exfalso
      have hmem := lookupTag_mem p.2 t ws hws
      obtain ⟨⟨r, hr, -, htg⟩, -⟩ :=
        soundPD_sortedBuckets records p.1 p.2 hp t ws hmem
      exact hnone r hr htg
/-- Witness for C4: requesting `"sports"` over records that never carry it
yields an empty output array. -/
theorem tag_filter_omits_buckets_witness :
    rankResult [⟨"t", "a", "b", "news", 5, 1⟩] (some "sports") = [] :=
  (tag_filter_omits_buckets [⟨"t", "a", "b", "news", 5, 1⟩] "sports"
    (by decide)).2 (by decide)

/-- C5: when every record's tag is one of the three channels, every emitted
mention summary satisfies `total = news + webtoon + youtube`. -/
theorem mention_total_eq_channel_sum (records : List Record) (sw : String)
    (htags : ∀ r ∈ records, r.tag = "news" ∨ r.tag = "webtoon" ∨ r.tag = "youtube")
    {out : List MentionEntry} (h : word_tags_result records sw = some out) :
    ∀ e ∈ out, e.total = e.news + e.webtoon + e.youtube :=
  buildMentions_minv records sw [] out htags (by simp) h

/-- Witness for C5: two channel records in one bucket give `8 = 5 + 3 + 0`. -/
theorem mention_total_eq_channel_sum_witness :
    (⟨"t", 8, 5, 3, 0, "a", ["a"], ["b"]⟩ : MentionEntry).total =
      (⟨"t", 8, 5, 3, 0, "a", ["a"], ["b"]⟩ : MentionEntry).news +
      (⟨"t", 8, 5, 3, 0, "a", ["a"], ["b"]⟩ : MentionEntry).webtoon +
      (⟨"t", 8, 5, 3, 0, "a", ["a"], ["b"]⟩ : MentionEntry).youtube :=
  mention_total_eq_channel_sum
    [⟨"t", "a", "b", "news", 5, 1⟩, ⟨"t", "c", "d", "webtoon", 3, 2⟩] "a"
    (by decide)
    (show word_tags_result
        [⟨"t", "a", "b", "news", 5, 1⟩, ⟨"t", "c", "d", "webtoon", 3, 2⟩] "a" =
        some [⟨"t", 8, 5, 3, 0, "a", ["a"], ["b"]⟩] from rfl)
    _ (by simp)

/-- C6 (divergence between the two handlers): when the fetch yields an empty
row list, `/word_tags` — whose guard is `raw_data is None`, not
`if not raw_data` — returns a 200 response carrying an empty array instead of
the documented 204, while `/rank` does return 204. -/
theorem word_tags_empty_rows_divergence :
    get_word_tags false false (FetchResult.rows []) "x" = MentionResponse.ok [] ∧
    get_rank false false (FetchResult.rows []) none = RankResponse.noContent := by
  constructor <;> rfl

/-- C7 (divergence): a malformed time string makes `datetime.strptime` raise
`ValueError`, which neither handler catches (only `ConnectionError` is), so
the request ends in an uncaught error — a server error, not a 4xx
rejection. -/
theorem malformed_time_uncaught_divergence :
    get_rank true false (FetchResult.rows []) none = RankResponse.uncaught ∧
    get_word_tags true false (FetchResult.rows []) "x" = MentionResponse.uncaught := by
  constructor <;> rfl

/-- C8: a record whose tag is outside the three channels (here `"sports"`)
makes the mention aggregation fault on the unknown channel key instead of
returning a summary, and the fault escapes the handler. -/
theorem unknown_channel_tag_faults :
    word_tags_result [⟨"2023-08-28 04:00:00", "a", "b", "sports", 1, 1⟩] "a" = none ∧
    get_word_tags false false
      (FetchResult.rows [⟨"2023-08-28 04:00:00", "a", "b", "sports", 1, 1⟩]) "a" =
      MentionResponse.uncaught := by
  constructor <;> rfl

/-- C9: the mention aggregation emits exactly one summary per distinct
timestamp, in first-encountered input order (no sorting), with no duplicate
buckets. -/
theorem mention_first_seen_order (records : List Record) (sw : String)
    {out : List MentionEntry} (h : word_tags_result records sw = some out) :
    out.map MentionEntry.timestamp =
      firstEncounteredOrder (records.map Record.timestamp) ∧
    (out.map MentionEntry.timestamp).Nodup := by
  have ht := buildMentions_timestamps records sw [] out h
  constructor
  · simpa [firstEncounteredOrder] using ht
  · rw [ht]
    exact feoAux_nodup _ _ (by simp)

/-- Witness for C9: out-of-order input timestamps `t2, t1, t2` produce
buckets `t2, t1` — first-seen order, not chronological. -/
theorem mention_first_seen_order_witness :
    List.map MentionEntry.timestamp
        [(⟨"t2", 4, 1, 3, 0, "z", [], []⟩ : MentionEntry),
         (⟨"t1", 2, 2, 0, 0, "z", [], []⟩ : MentionEntry)] =
      firstEncounteredOrder (List.map Record.timestamp
        [⟨"t2", "a", "b", "news", 1, 1⟩, ⟨"t1", "a", "b", "news", 2, 1⟩,
         ⟨"t2", "c", "d", "webtoon", 3, 1⟩]) ∧
    (List.map MentionEntry.timestamp
        [(⟨"t2", 4, 1, 3, 0, "z", [], []⟩ : MentionEntry),
         (⟨"t1", 2, 2, 0, 0, "z", [], []⟩ : MentionEntry)]).Nodup :=
  mention_first_seen_order
    [⟨"t2", "a", "b", "news", 1, 1⟩, ⟨"t1", "a", "b", "news", 2, 1⟩,
     ⟨"t2", "c", "d", "webtoon", 3, 1⟩] "z" (by rfl)

/-- C10: every emitted ranked word entry originates from an input record of
the same bucket timestamp carrying exactly those four field values, and, when
a (truthy) tag was requested, that record's tag is the requested one. -/
theorem rank_output_soundness (records : List Record) (tag : Option String) :
    ∀ b ∈ rankResult records tag, ∀ w ∈ b.words,
      ∃ r, r ∈ records ∧ r.timestamp = b.timestamp ∧
        r.incorrect_word = w.incorrect_word ∧ r.correct_word = w.correct_word ∧
        r.occurrence_count = w.occurrence_count ∧ r.rank = w.rank ∧
        (∀ t, tag = some t → t ≠ "" → r.tag = t) := by
  intro b hb w hw
  obtain ⟨p, hp, hbo⟩ := List.mem_filterMap.1 hb
  obtain ⟨ws, hws, rfl⟩ := Option.map_eq_some'.1 hbo
  have hw' : w ∈ ws := mem_topWords hw
  have hsound := soundPD_sortedBuckets records p.1 p.2 hp
  have hall : (ws = all_words p.2 ∧ ∀ t, tag = some t → t = "") ∨
      (∃ t, tag = some t ∧ t ≠ "" ∧ lookupTag p.2 t = some ws) := by
    rcases tag with _ | t
    · exact Or.inl ⟨(Option.some.inj hws).symm, fun t ht => by cases ht⟩
    · by_cases hte : t = ""
      · subst hte
        simp only [scanWords, if_pos] at hws
        exact Or.inl ⟨(Option.some.inj hws).symm,
          fun t' ht' => (Option.some.inj ht').symm⟩
      · simp only [scanWords, if_neg hte] at hws
        exact Or.inr ⟨t, rfl, hte, hws⟩
  rcases hall with ⟨rfl, hemp⟩ | ⟨t, rfl, hte, hlk⟩
  · obtain ⟨q, hq, hwq⟩ := mem_all_words hw'
    obtain ⟨-, hents⟩ := hsound q.1 q.2 hq
    obtain ⟨r, hr, hts, -, he⟩ := hents w hwq
    subst he
    exact ⟨r, hr, hts, rfl, rfl, rfl, rfl,
      fun t' ht' hne => absurd (hemp t' ht') hne⟩
  · obtain ⟨-, hents⟩ := hsound t ws (lookupTag_mem p.2 t ws hlk)
    obtain ⟨r, hr, hts, htg, he⟩ := hents w hw'
    subst he
    refine ⟨r, hr, hts, rfl, rfl, rfl, rfl, ?_⟩
    intro t' ht' _
    obtain rfl := Option.some.inj ht'
    exact htg

/-- Witness for C10: applying the soundness theorem to the single emitted
entry of a one-record input traces it back to that record, whose tag is the
requested one. -/
theorem rank_output_soundness_witness :
    (⟨"t", "a", "b", "news", 5, 1⟩ : Record).timestamp = "t" ∧
    (⟨"t", "a", "b", "news", 5, 1⟩ : Record).tag = "news" := by
  obtain ⟨r, hr, hts, -, -, -, -, htag⟩ :=
    rank_output_soundness [⟨"t", "a", "b", "news", 5, 1⟩] (some "news")
      ⟨"t", "news", [⟨"a", "b", 5, 1⟩]⟩ (by
        simp [rankResult, sortedBuckets, processed_data, buildProcessed, insertRecord,
          appendWord, entryOf, bucketOut, scanWords, outKey, all_words, topWords,
          rankLoop, bucketLE, strLE, charsLE, lookupTag,
          List.mergeSort, List.splitInTwo, List.merge, countLE])
      (⟨"a", "b", 5, 1⟩ : WordEntry) (by simp)
  have hr1 : r = ⟨"t", "a", "b", "news", 5, 1⟩ := by simpa using hr
  subst hr1
  exact ⟨hts, htag "news" rfl (by decide)⟩
